import Mathlib

/-!
Shallow embedding of the find-dups duplicate detector
(src/find_dups/utils/file_dict_utils.py, src/find_dups/utils/fileutils.py,
src/find_dups/utils/report.py).

A filesystem entry seen by one run of the program is an `FsEntry` record:
the path string, whether the entry is a regular file, and its byte
content.  `st_size` of a regular file is the byte length of its content.
Python's insertion-ordered `dict` is modelled as an association list, and
the MD5 digest primitive (`hashlib.md5`, an external library) is a
parameter `md5 : List Nat → String` of every definition that hashes.
The `directory.rglob` tree walk is modelled by the `listing` argument:
the list of entries the walk yields, in walk order.
-/

/-- Index of the last dot in a list of characters (Python `str.rfind` for
a dot), `none` when there is no dot. -/
def rfindDot : List Char → Option Nat
  | [] => none
  | c :: cs =>
    match rfindDot cs with
    | some i => some (i + 1)
    | none => if c = '.' then some 0 else none

/-- The final path component: the characters after the last slash
(`pathlib.PurePath.name` for the slash-separated paths a tree walk
yields; walk results never carry a trailing slash). -/
def pathName (p : String) : String :=
  String.mk (p.toList.foldl (fun acc c => if c = '/' then [] else acc ++ [c]) [])

/-- Split a file name into stem and suffix following `pathlib`: the
suffix runs from the last dot to the end, provided that dot is neither
the first nor the last character of the name; otherwise the suffix is
empty and the stem is the whole name. -/
def nameSplit (name : String) : String × String :=
  let cs := name.toList
  match rfindDot cs with
  | some i =>
    if 0 < i ∧ i + 1 < cs.length then (String.mk (cs.take i), String.mk (cs.drop i))
    else (name, "")
  | none => (name, "")

/-- One filesystem entry as captured by a single run: its path, whether
the platform classifies it as a regular file, and its byte content. -/
structure FsEntry where
  path : String
  isFile : Bool
  content : List Nat
deriving DecidableEq, Repr

/-- `pathlib.Path.name` of an entry. -/
def FsEntry.name (f : FsEntry) : String := pathName f.path

/-- `pathlib.Path.stem` of an entry. -/
def FsEntry.stem (f : FsEntry) : String := (nameSplit (pathName f.path)).1

/-- `pathlib.Path.suffix` of an entry. -/
def FsEntry.suffix (f : FsEntry) : String := (nameSplit (pathName f.path)).2

/-- `Path.stat().st_size` of a regular file: the byte length of its
content. -/
def FsEntry.st_size (f : FsEntry) : Nat := f.content.length

/-- The dict-building idiom used throughout `file_dict_utils.py`:
`if key not in d: d[key] = []` followed by `d[key].append(f)`, on an
insertion-ordered association list (a fresh key goes to the end). -/
def addToGroup {κ α : Type} [DecidableEq κ] : List (κ × List α) → κ → α → List (κ × List α)
  | [], k, f => [(k, [f])]
  | p :: ps, k, f =>
    if p.1 = k then (p.1, p.2 ++ [f]) :: ps else p :: addToGroup ps k f

/-- `d[k]` on the association-list dict, defaulting to the empty list
when the key is absent. -/
def lookupG {κ α : Type} [DecidableEq κ] (d : List (κ × List α)) (k : κ) : List α :=
  match d.find? (fun p => decide (p.1 = k)) with
  | some p => p.2
  | none => []

/-- The shared grouping loop: scan `files` once in order, adding each
file to the group of its key, starting from the dict `d`. -/
def groupFold {κ α : Type} [DecidableEq κ] (key : α → κ) (files : List α)
    (d : List (κ × List α)) : List (κ × List α) :=
  files.foldl (fun d f => addToGroup d (key f) f) d

/-- Concatenation of all value lists of an association-list dict, in
dict order (what iterating `for files in d.values(): for f in files`
visits). -/
def flatValues {κ α : Type} : List (κ × List α) → List α
  | [] => []
  | p :: ps => p.2 ++ flatValues ps

/-- `get_files_by_size` from file_dict_utils.py: group files by their
size, one pass in list order. -/
def get_files_by_size (files : List FsEntry) : List (Nat × List FsEntry) :=
  files.foldl (fun size_dict f => addToGroup size_dict f.st_size f) []

/-- `prune_non_duplicates` from file_dict_utils.py: keep exactly the
entries whose value list has more than one element. -/
def prune_non_duplicates {κ α : Type} (files_dict : List (κ × List α)) : List (κ × List α) :=
  files_dict.filter (fun p => decide (1 < p.2.length))

/-- `get_files_by_hash` from file_dict_utils.py: for each file in every
value list of the input dict, in dict order, compute the content digest
and group by it.  The input keys are never consulted.  Streaming the
file through the hasher in 4096-byte chunks yields the digest of the
whole content, so the digest is `md5 f.content`. -/
def get_files_by_hash {κ : Type} (md5 : List Nat → String)
    (files_by_size_dict : List (κ × List FsEntry)) : List (String × List FsEntry) :=
  files_by_size_dict.foldl
    (fun hash_dict p => p.2.foldl (fun h f => addToGroup h (md5 f.content) f) hash_dict) []

/-- `get_files_by_name` from file_dict_utils.py: group files by their
final path component. -/
def get_files_by_name (files : List FsEntry) : List (String × List FsEntry) :=
  files.foldl (fun name_dict f => addToGroup name_dict f.name f) []

/-- Loop body of `get_files_by_stem_diff_suffix`: ensure the stem's
group exists, then append the file only when no member of that group
already has the file's suffix. -/
def stemStep (stem_dict : List (String × List FsEntry)) (f : FsEntry) :
    List (String × List FsEntry) :=
  if ∃ h ∈ lookupG stem_dict f.stem, h.suffix = f.suffix then stem_dict
  else addToGroup stem_dict f.stem f

/-- `get_files_by_stem_diff_suffix` from file_dict_utils.py: one pass in
list order; a file joins its stem's group only when the group holds no
file of the same suffix yet. -/
def get_files_by_stem_diff_suffix (files : List FsEntry) : List (String × List FsEntry) :=
  files.foldl stemStep []

/-- `get_files` from fileutils.py: keep the regular files of the walk,
and when a filter set is supplied only those whose suffix is a member of
it (exact, case-sensitive string comparison on the final extension). -/
def get_files (listing : List FsEntry) (extensions : Option (List String)) : List FsEntry :=
  listing.filter (fun f =>
    f.isFile &&
      match extensions with
      | none => true
      | some exts => decide (f.suffix ∈ exts))

/-- `DupFileReasonEnum` from fileutils.py. -/
inductive DupFileReasonEnum
  | SAME_SIZE_AND_HASH
  | SAME_NAME
  | SAME_STEM_DIFF_SUFFIX
deriving DecidableEq, Repr

/-- The `.value` string of each enum member. -/
def DupFileReasonEnum.value : DupFileReasonEnum → String
  | .SAME_SIZE_AND_HASH => "same size and hash"
  | .SAME_NAME => "same name"
  | .SAME_STEM_DIFF_SUFFIX => "same stem different suffix"

/-- `find_potential_duplicates` from fileutils.py: enumerate and filter
the files, then run the three independent pipelines and return the dict
literal with the three reason keys in source order. -/
def find_potential_duplicates (md5 : List Nat → String) (listing : List FsEntry)
    (extensions : Option (List String)) :
    List (DupFileReasonEnum × List (String × List FsEntry)) :=
  let files := get_files listing extensions
  let by_size_dups_dict := prune_non_duplicates (get_files_by_size files)
  let by_md5_dups_dict := prune_non_duplicates (get_files_by_hash md5 by_size_dups_dict)
  let by_name_dups_dict := prune_non_duplicates (get_files_by_name files)
  let by_stem_dups_dict := prune_non_duplicates (get_files_by_stem_diff_suffix files)
  [(DupFileReasonEnum.SAME_SIZE_AND_HASH, by_md5_dups_dict),
   (DupFileReasonEnum.SAME_NAME, by_name_dups_dict),
   (DupFileReasonEnum.SAME_STEM_DIFF_SUFFIX, by_stem_dups_dict)]

/-- `format_duplicate_report` from report.py builds a line list and
joins it with newlines; this is the line list.  Per reason: the
`Reason:` header, then either the single no-duplicates line (which
carries its own trailing newline, rendering as a blank line under the
join) or, per group, one indented line per path followed by an empty
line, with one further empty line after the reason's groups. -/
def reportLines (duplicates : List (DupFileReasonEnum × List (String × List FsEntry))) :
    List String :=
  duplicates.foldl
    (fun report_lines rp =>
      let report_lines := report_lines ++ ["Reason: " ++ rp.1.value]
      match rp.2 with
      | [] => report_lines ++ ["    No potential duplicates found.\n"]
      | _ =>
        (rp.2.foldl
          (fun ls p => ls ++ (p.2.map (fun f => "    - " ++ f.path) ++ [""]))
          report_lines) ++ [""])
    []

/-- `format_duplicate_report` from report.py. -/
def format_duplicate_report
    (duplicates : List (DupFileReasonEnum × List (String × List FsEntry))) : String :=
  String.intercalate "\n" (reportLines duplicates)

/-- Modelled from the spec: grouping every file of the list by content
hash directly, without the size pre-grouping (the reference point the
spec's open question compares the implemented pipeline against). -/
def groupByHashDirect (md5 : List Nat → String) (files : List FsEntry) :
    List (String × List FsEntry) :=
  groupFold (fun f => md5 f.content) files []

/-- The lines a single reason contributes to the report, written
directly (used to state the report's fixed block structure). -/
def groupBlock (p : String × List FsEntry) : List String :=
  p.2.map (fun f => "    - " ++ f.path) ++ [""]

/-- Concatenation of the blocks a function assigns to each list
element. -/
def concatAll {β γ : Type} (g : β → List γ) : List β → List γ
  | [] => []
  | x :: xs => g x ++ concatAll g xs

/-- The report lines of one reason entry: header, then either the
no-duplicates line or the group blocks followed by an empty line. -/
def reasonBlock (rp : DupFileReasonEnum × List (String × List FsEntry)) : List String :=
  ("Reason: " ++ rp.1.value) ::
    (match rp.2 with
     | [] => ["    No potential duplicates found.\n"]
     | _ => concatAll groupBlock rp.2 ++ [""])

/-! ### Lemmas about the association-list dict operations -/

theorem lookupG_nil {κ α : Type} [DecidableEq κ] (k : κ) :
    lookupG ([] : List (κ × List α)) k = [] := rfl

theorem lookupG_cons {κ α : Type} [DecidableEq κ] (p : κ × List α)
    (d : List (κ × List α)) (k : κ) :
    lookupG (p :: d) k = if p.1 = k then p.2 else lookupG d k := by
  by_cases h : p.1 = k <;> simp [lookupG, List.find?, h]

theorem lookupG_eq_nil {κ α : Type} [DecidableEq κ] {d : List (κ × List α)} {k : κ}
    (h : k ∉ d.map Prod.fst) : lookupG d k = [] := by
  induction d with
  | nil => rfl
  | cons p ps ih =>
    simp only [List.map_cons, List.mem_cons, not_or] at h
    rw [lookupG_cons, if_neg (fun hc => h.1 hc.symm)]
    exact ih h.2

theorem lookupG_addToGroup {κ α : Type} [DecidableEq κ] (d : List (κ × List α))
    (k' k : κ) (f : α) :
    lookupG (addToGroup d k' f) k =
      if k = k' then lookupG d k ++ [f] else lookupG d k := by
  induction d with
  | nil =>
    show lookupG [(k', [f])] k = _
    rw [lookupG_cons]
    by_cases h : k = k'
    · rw [if_pos h.symm, if_pos h, lookupG_nil, List.nil_append]
    · rw [if_neg (fun hc => h hc.symm), if_neg h]
  | cons p ps ih =>
    by_cases h1 : p.1 = k'
    · rw [addToGroup, if_pos h1]
      by_cases h2 : p.1 = k
      · have : k = k' := h2 ▸ h1
        simp [lookupG_cons, h2, this]
      · have : ¬ k = k' := fun hc => h2 (hc ▸ h1)
        simp [lookupG_cons, h2, this]
    · rw [addToGroup, if_neg h1]
      by_cases h2 : p.1 = k
      · have : ¬ k = k' := fun hc => h1 (h2.trans hc)
        simp [lookupG_cons, h2, this]
      · simp [lookupG_cons, h2, ih]

theorem keys_addToGroup {κ α : Type} [DecidableEq κ] (d : List (κ × List α))
    (k : κ) (f : α) :
    (addToGroup d k f).map Prod.fst =
      if k ∈ d.map Prod.fst then d.map Prod.fst else d.map Prod.fst ++ [k] := by
  induction d with
  | nil => simp [addToGroup]
  | cons p ps ih =>
    by_cases h : p.1 = k
    · simp [addToGroup, h]
    · have hne : ¬ k = p.1 := fun hc => h hc.symm
      rw [addToGroup, if_neg h]
      simp only [List.map_cons, ih, List.mem_cons, hne, false_or]
      by_cases hk : k ∈ ps.map Prod.fst
      · simp [hk]
      · simp [hk]

theorem keysNodup_addToGroup {κ α : Type} [DecidableEq κ] {d : List (κ × List α)}
    (k : κ) (f : α) (h : (d.map Prod.fst).Nodup) :
    ((addToGroup d k f).map Prod.fst).Nodup := by
  rw [keys_addToGroup]
  split
  · exact h
  · next hk => simp [List.nodup_append, h, hk]

theorem mem_addToGroup {κ α : Type} [DecidableEq κ] {d : List (κ × List α)}
    {k : κ} {f : α} {p : κ × List α} (hp : p ∈ addToGroup d k f) :
    p ∈ d ∨ (∃ q ∈ d, q.1 = k ∧ p = (q.1, q.2 ++ [f])) ∨ p = (k, [f]) := by
  induction d with
  | nil => simp [addToGroup] at hp; simp [hp]
  | cons q qs ih =>
    by_cases h : q.1 = k
    · rw [addToGroup, if_pos h] at hp
      rcases List.mem_cons.mp hp with h1 | h1
      · exact Or.inr (Or.inl ⟨q, List.mem_cons_self _ _, h, h1⟩)
      · exact Or.inl (List.mem_cons_of_mem _ h1)
    · rw [addToGroup, if_neg h] at hp
      rcases List.mem_cons.mp hp with h1 | h1
      · exact Or.inl (h1 ▸ List.mem_cons_self _ _)
      · rcases ih h1 with h2 | h2 | h2
        · exact Or.inl (List.mem_cons_of_mem _ h2)
        · rcases h2 with ⟨r, hr, hrk, hpr⟩
          exact Or.inr (Or.inl ⟨r, List.mem_cons_of_mem _ hr, hrk, hpr⟩)
        · exact Or.inr (Or.inr h2)

theorem mem_snd_addToGroup {κ α : Type} [DecidableEq κ] {d : List (κ × List α)}
    {k : κ} {f : α} {p : κ × List α} {x : α} (hp : p ∈ addToGroup d k f)
    (hx : x ∈ p.2) : (∃ q ∈ d, x ∈ q.2) ∨ x = f := by
  rcases mem_addToGroup hp with h | h | h
  · exact Or.inl ⟨p, h, hx⟩
  · rcases h with ⟨q, hq, _, hpq⟩
    rw [hpq] at hx
    rcases List.mem_append.mp hx with h1 | h1
    · exact Or.inl ⟨q, hq, h1⟩
    · exact Or.inr (List.mem_singleton.mp h1)
  · rw [h] at hx
    exact Or.inr (List.mem_singleton.mp hx)

theorem snd_ne_nil_addToGroup {κ α : Type} [DecidableEq κ] {d : List (κ × List α)}
    {k : κ} {f : α} (hd : ∀ p ∈ d, p.2 ≠ []) :
    ∀ p ∈ addToGroup d k f, p.2 ≠ [] := by
  intro p hp
  rcases mem_addToGroup hp with h | h | h
  · exact hd p h
  · rcases h with ⟨q, _, _, hpq⟩
    simp [hpq]
  · simp [h]

theorem lookupG_of_mem {κ α : Type} [DecidableEq κ] {d : List (κ × List α)}
    (hd : (d.map Prod.fst).Nodup) {p : κ × List α} (hp : p ∈ d) :
    lookupG d p.1 = p.2 := by
  induction d with
  | nil => cases hp
  | cons q qs ih =>
    rcases List.mem_cons.mp hp with h | h
    · rw [h, lookupG_cons, if_pos rfl]
    · have hq : q.1 ≠ p.1 := by
        intro hc
        have : p.1 ∈ qs.map Prod.fst := List.mem_map_of_mem Prod.fst h
        rw [← hc] at this
        exact (List.nodup_cons.mp hd).1 this
      rw [lookupG_cons, if_neg hq]
      exact ih (List.nodup_cons.mp hd).2 h

theorem entries_key_eq {κ α : Type} [DecidableEq κ] {d : List (κ × List α)}
    (hd : (d.map Prod.fst).Nodup) {p q : κ × List α} (hp : p ∈ d) (hq : q ∈ d)
    (hk : p.1 = q.1) : p = q := by
  have h1 := lookupG_of_mem hd hp
  have h2 := lookupG_of_mem hd hq
  rw [hk] at h1
  have : p.2 = q.2 := h1.symm.trans h2
  exact Prod.ext hk this

theorem exists_entry_of_mem_keys {κ α : Type} [DecidableEq κ] {d : List (κ × List α)}
    {k : κ} (h : k ∈ d.map Prod.fst) : ∃ q ∈ d, q.1 = k := by
  rcases List.mem_map.mp h with ⟨q, hq, hqk⟩
  exact ⟨q, hq, hqk⟩

/-! ### Lemmas about the shared grouping loop -/

theorem groupFold_nil {κ α : Type} [DecidableEq κ] (key : α → κ) (d : List (κ × List α)) :
    groupFold key [] d = d := rfl

theorem groupFold_cons {κ α : Type} [DecidableEq κ] (key : α → κ) (f : α) (fs : List α)
    (d : List (κ × List α)) :
    groupFold key (f :: fs) d = groupFold key fs (addToGroup d (key f) f) := rfl

theorem groupFold_append {κ α : Type} [DecidableEq κ] (key : α → κ) (l₁ l₂ : List α)
    (d : List (κ × List α)) :
    groupFold key (l₁ ++ l₂) d = groupFold key l₂ (groupFold key l₁ d) :=
  List.foldl_append _ _ _ _

theorem lookupG_groupFold {κ α : Type} [DecidableEq κ] (key : α → κ) (files : List α)
    (d : List (κ × List α)) (k : κ) :
    lookupG (groupFold key files d) k =
      lookupG d k ++ files.filter (fun f => decide (key f = k)) := by
  induction files generalizing d with
  | nil => simp [groupFold_nil]
  | cons f fs ih =>
    rw [groupFold_cons, ih, lookupG_addToGroup]
    by_cases h : key f = k
    · rw [if_pos h.symm, List.filter_cons_of_pos (by simp [h]), List.append_assoc]
      simp
    · rw [if_neg (fun hc => h hc.symm), List.filter_cons_of_neg (by simp [h])]

theorem keysNodup_groupFold {κ α : Type} [DecidableEq κ] (key : α → κ) (files : List α)
    {d : List (κ × List α)} (hd : (d.map Prod.fst).Nodup) :
    ((groupFold key files d).map Prod.fst).Nodup := by
  induction files generalizing d with
  | nil => exact hd
  | cons f fs ih => exact ih (keysNodup_addToGroup _ _ hd)

theorem snd_ne_nil_groupFold {κ α : Type} [DecidableEq κ] (key : α → κ) (files : List α)
    {d : List (κ × List α)} (hd : ∀ p ∈ d, p.2 ≠ []) :
    ∀ p ∈ groupFold key files d, p.2 ≠ [] := by
  induction files generalizing d with
  | nil => exact hd
  | cons f fs ih => exact ih (snd_ne_nil_addToGroup hd)

theorem entry_groupFold {κ α : Type} [DecidableEq κ] {key : α → κ} {files : List α}
    {p : κ × List α} (hp : p ∈ groupFold key files []) :
    p.2 = files.filter (fun f => decide (key f = p.1)) := by
  have hnd : ((groupFold key files ([] : List (κ × List α))).map Prod.fst).Nodup :=
    keysNodup_groupFold key files (by simp)
  have := lookupG_of_mem hnd hp
  rw [lookupG_groupFold, lookupG_nil, List.nil_append] at this
  exact this.symm

theorem mem_keys_groupFold_of_mem {κ α : Type} [DecidableEq κ] {key : α → κ}
    {files : List α} {f : α} (hf : f ∈ files) :
    key f ∈ (groupFold key files ([] : List (κ × List α))).map Prod.fst := by
  by_contra hk
  have h0 : lookupG (groupFold key files ([] : List (κ × List α))) (key f) = [] :=
    lookupG_eq_nil hk
  rw [lookupG_groupFold, lookupG_nil, List.nil_append] at h0
  have : f ∈ files.filter (fun g => decide (key g = key f)) :=
    List.mem_filter.mpr ⟨hf, by simp⟩
  rw [h0] at this
  cases this

theorem existsUnique_groupFold {κ α : Type} [DecidableEq κ] {key : α → κ}
    {files : List α} {f : α} (hf : f ∈ files) :
    ∃! p, p ∈ groupFold key files ([] : List (κ × List α)) ∧ f ∈ p.2 := by
  have hnd : ((groupFold key files ([] : List (κ × List α))).map Prod.fst).Nodup :=
    keysNodup_groupFold key files (by simp)
  rcases exists_entry_of_mem_keys (@mem_keys_groupFold_of_mem κ α _ key files f hf) with
    ⟨q, hq, hqk⟩
  refine ⟨q, ⟨hq, ?_⟩, ?_⟩
  · rw [entry_groupFold hq, hqk]
    exact List.mem_filter.mpr ⟨hf, by simp⟩
  · intro r ⟨hr, hfr⟩
    have hkey : r.1 = q.1 := by
      have := entry_groupFold hr
      rw [this] at hfr
      have h1 := (List.mem_filter.mp hfr).2
      rw [hqk]
      exact (by simpa using h1 : key f = r.1).symm
    exact entries_key_eq hnd hr hq hkey

/-! ### Flattened values -/

theorem mem_flatValues {κ α : Type} {d : List (κ × List α)} {x : α} :
    x ∈ flatValues d ↔ ∃ p ∈ d, x ∈ p.2 := by
  induction d with
  | nil => simp [flatValues]
  | cons p ps ih => simp [flatValues, ih]

theorem foldl_flatValues {κ α β : Type} (step : β → α → β) (d : List (κ × List α)) (b : β) :
    (flatValues d).foldl step b = d.foldl (fun acc p => p.2.foldl step acc) b := by
  induction d generalizing b with
  | nil => rfl
  | cons p ps ih => rw [flatValues, List.foldl_append, List.foldl_cons, ih]

theorem get_files_by_hash_eq_groupFold {κ : Type} (md5 : List Nat → String)
    (d : List (κ × List FsEntry)) :
    get_files_by_hash md5 d = groupFold (fun f => md5 f.content) (flatValues d) [] :=
  (foldl_flatValues _ d []).symm

/-! ### Pruning -/

theorem mem_prune {κ α : Type} {d : List (κ × List α)} {p : κ × List α} :
    p ∈ prune_non_duplicates d ↔ p ∈ d ∧ 1 < p.2.length := by
  simp [prune_non_duplicates, List.mem_filter]

theorem keys_prune_sub {κ α : Type} {d : List (κ × List α)} {k : κ}
    (h : k ∈ (prune_non_duplicates d).map Prod.fst) : k ∈ d.map Prod.fst := by
  rcases List.mem_map.mp h with ⟨p, hp, hk⟩
  exact hk ▸ List.mem_map_of_mem Prod.fst (mem_prune.mp hp).1

theorem keysNodup_prune {κ α : Type} {d : List (κ × List α)}
    (hd : (d.map Prod.fst).Nodup) : ((prune_non_duplicates d).map Prod.fst).Nodup :=
  ((List.filter_sublist d).map Prod.fst).nodup hd

theorem lookupG_prune {κ α : Type} [DecidableEq κ] {d : List (κ × List α)}
    (hd : (d.map Prod.fst).Nodup) (k : κ) :
    lookupG (prune_non_duplicates d) k =
      if 1 < (lookupG d k).length then lookupG d k else [] := by
  induction d with
  | nil => simp [prune_non_duplicates, lookupG_nil]
  | cons p ps ih =>
    have hd1 : p.1 ∉ ps.map Prod.fst := (List.nodup_cons.mp (by simpa using hd)).1
    have hd2 : (ps.map Prod.fst).Nodup := (List.nodup_cons.mp (by simpa using hd)).2
    by_cases hk : p.1 = k
    · rw [lookupG_cons, if_pos hk]
      have hout : lookupG (prune_non_duplicates ps) k = [] := by
        apply lookupG_eq_nil
        intro hc
        exact hd1 (hk ▸ keys_prune_sub hc)
      by_cases hl : 1 < p.2.length
      · rw [prune_non_duplicates, List.filter_cons_of_pos (by simpa using hl),
          lookupG_cons, if_pos hk, if_pos hl]
      · rw [prune_non_duplicates, List.filter_cons_of_neg (by simpa using hl), if_neg hl]
        exact hout
    · rw [lookupG_cons, if_neg hk]
      by_cases hl : 1 < p.2.length
      · rw [prune_non_duplicates, List.filter_cons_of_pos (by simpa using hl),
          lookupG_cons, if_neg hk]
        exact ih hd2
      · rw [prune_non_duplicates, List.filter_cons_of_neg (by simpa using hl)]
        exact ih hd2

/-! ### Small list facts -/

theorem one_lt_length_of_mem_ne {α : Type} {l : List α} {a b : α}
    (ha : a ∈ l) (hb : b ∈ l) (hab : a ≠ b) : 1 < l.length := by
  match l with
  | [] => cases ha
  | [x] =>
    rw [List.mem_singleton] at ha hb
    exact absurd (ha.trans hb.symm) hab
  | x :: y :: xs => simp [Nat.lt_add_of_pos_left]

/-! ### Invariants of the stem grouping -/

/-- Invariant carried through the stem-grouping loop: keys are distinct,
every member sits under its own stem, and the suffixes within one group
are pairwise distinct. -/
def StemInv (d : List (String × List FsEntry)) : Prop :=
  (d.map Prod.fst).Nodup ∧ (∀ p ∈ d, ∀ x ∈ p.2, x.stem = p.1) ∧
    (∀ p ∈ d, (p.2.map FsEntry.suffix).Nodup)

theorem stemInv_step {d : List (String × List FsEntry)} (f : FsEntry)
    (hd : StemInv d) : StemInv (stemStep d f) := by
  obtain ⟨hnd, hstem, hsuf⟩ := hd
  rw [stemStep]
  split
  · exact ⟨hnd, hstem, hsuf⟩
  · next hno =>
    refine ⟨keysNodup_addToGroup _ _ hnd, ?_, ?_⟩
    · intro p hp x hx
      rcases mem_addToGroup hp with h | h | h
      · exact hstem p h x hx
      · rcases h with ⟨q, hq, hqk, hpq⟩
        rw [hpq] at hx ⊢
        rcases List.mem_append.mp hx with h1 | h1
        · exact hstem q hq x h1
        · rw [List.mem_singleton.mp h1, hqk]
      · rw [h] at hx ⊢
        rw [List.mem_singleton.mp hx]
    · intro p hp
      rcases mem_addToGroup hp with h | h | h
      · exact hsuf p h
      · rcases h with ⟨q, hq, hqk, hpq⟩
        rw [hpq]
        simp only [List.map_append, List.map_cons, List.map_nil]
        rw [List.nodup_append]
        refine ⟨hsuf q hq, List.nodup_singleton _, ?_⟩
        intro s hs
        simp only [List.mem_singleton]
        intro hc
        rcases List.mem_map.mp hs with ⟨y, hy, hys⟩
        apply hno
        refine ⟨y, ?_, by rw [hys, hc]⟩
        rw [← hqk, lookupG_of_mem hnd hq]
        exact hy
      · rw [h]
        simp

theorem stemInv_fold (files : List FsEntry) {d : List (String × List FsEntry)}
    (hd : StemInv d) : StemInv (files.foldl stemStep d) := by
  induction files generalizing d with
  | nil => exact hd
  | cons f fs ih => exact ih (stemInv_step f hd)

theorem stemInv_get_files_by_stem_diff_suffix (files : List FsEntry) :
    StemInv (get_files_by_stem_diff_suffix files) :=
  stemInv_fold files ⟨by simp, by simp, by simp⟩

/-- After processing `f`, its stem's group holds a member with `f`'s
suffix. -/
def StemCovered (d : List (String × List FsEntry)) (f : FsEntry) : Prop :=
  ∃ h ∈ lookupG d f.stem, h.suffix = f.suffix

theorem stemCovered_step_mono {d : List (String × List FsEntry)} {f : FsEntry}
    (g : FsEntry) (h : StemCovered d f) : StemCovered (stemStep d g) f := by
  rcases h with ⟨x, hx, hxs⟩
  rw [stemStep]
  split
  · exact ⟨x, hx, hxs⟩
  · refine ⟨x, ?_, hxs⟩
    rw [lookupG_addToGroup]
    split
    · exact List.mem_append_left _ hx
    · exact hx

theorem stemCovered_step_self (d : List (String × List FsEntry)) (f : FsEntry) :
    StemCovered (stemStep d f) f := by
  rw [stemStep]
  split
  · next h => exact h
  · refine ⟨f, ?_, rfl⟩
    rw [lookupG_addToGroup, if_pos rfl]
    exact List.mem_append_right _ (List.mem_singleton.mpr rfl)

theorem stemCovered_fold_mono {d : List (String × List FsEntry)} {f : FsEntry}
    (l : List FsEntry) (h : StemCovered d f) : StemCovered (l.foldl stemStep d) f := by
  induction l generalizing d with
  | nil => exact h
  | cons g gs ih => exact ih (stemCovered_step_mono g h)

theorem stemCovered_fold {files : List FsEntry} {f : FsEntry} (hf : f ∈ files)
    (d : List (String × List FsEntry)) : StemCovered (files.foldl stemStep d) f := by
  induction files generalizing d with
  | nil => cases hf
  | cons g gs ih =>
    rcases List.mem_cons.mp hf with h | h
    · rw [List.foldl_cons]
      exact stemCovered_fold_mono gs (h ▸ stemCovered_step_self d g)
    · exact ih h _

theorem mem_snd_stemFold {files : List FsEntry} {d p : _} {x : FsEntry}
    (hp : p ∈ files.foldl stemStep d) (hx : x ∈ p.2) :
    (∃ q ∈ d, x ∈ q.2) ∨ x ∈ files := by
  induction files generalizing d with
  | nil => exact Or.inl ⟨p, hp, hx⟩
  | cons g gs ih =>
    rw [List.foldl_cons] at hp
    rcases ih hp with h | h
    · rcases h with ⟨q, hq, hxq⟩
      rw [stemStep] at hq
      split at hq
      · exact Or.inl ⟨q, hq, hxq⟩
      · rcases mem_snd_addToGroup hq hxq with h1 | h1
        · exact Or.inl h1
        · exact Or.inr (h1 ▸ List.mem_cons_self _ _)
    · exact Or.inr (List.mem_cons_of_mem _ h)

theorem mem_snd_stem_groups {files : List FsEntry} {p : _} {x : FsEntry}
    (hp : p ∈ get_files_by_stem_diff_suffix files) (hx : x ∈ p.2) : x ∈ files := by
  rcases mem_snd_stemFold hp hx with h | h
  · rcases h with ⟨q, hq, _⟩
    cases hq
  · exact h

/-! ### Report lemmas -/

theorem foldl_concatAll {β γ : Type} (g : β → List γ) (l : List β) (acc : List γ) :
    l.foldl (fun ls x => ls ++ g x) acc = acc ++ concatAll g l := by
  induction l generalizing acc with
  | nil => simp [concatAll]
  | cons x xs ih => rw [List.foldl_cons, ih, concatAll, List.append_assoc]

theorem reportLines_eq_concatAll
    (duplicates : List (DupFileReasonEnum × List (String × List FsEntry))) :
    reportLines duplicates = concatAll reasonBlock duplicates := by
  suffices h : ∀ acc, duplicates.foldl
      (fun report_lines rp =>
        let report_lines := report_lines ++ ["Reason: " ++ rp.1.value]
        match rp.2 with
        | [] => report_lines ++ ["    No potential duplicates found.\n"]
        | _ =>
          (rp.2.foldl
            (fun ls p => ls ++ (p.2.map (fun f => "    - " ++ f.path) ++ [""]))
            report_lines) ++ [""]) acc = acc ++ concatAll reasonBlock duplicates by
    exact (h []).trans (by simp)
  induction duplicates with
  | nil => intro acc; simp [concatAll]
  | cons rp rest ih =>
    intro acc
    rw [List.foldl_cons, ih, concatAll]
    have hstep : (match rp.2 with
        | [] => (acc ++ ["Reason: " ++ rp.1.value]) ++
            ["    No potential duplicates found.\n"]
        | _ =>
          (rp.2.foldl
            (fun ls p => ls ++ (p.2.map (fun f => "    - " ++ f.path) ++ [""]))
            (acc ++ ["Reason: " ++ rp.1.value])) ++ [""]) = acc ++ reasonBlock rp := by
      match h2 : rp.2 with
      | [] => simp [reasonBlock, h2]
      | q :: qs =>
        have : (q :: qs).foldl
            (fun ls p => ls ++ (p.2.map (fun f => "    - " ++ f.path) ++ [""]))
            (acc ++ ["Reason: " ++ rp.1.value]) =
            (acc ++ ["Reason: " ++ rp.1.value]) ++ concatAll groupBlock (q :: qs) := by
          rw [← foldl_concatAll]
          rfl
        simp only [this, reasonBlock, h2, groupBlock]
        simp
    rw [hstep, List.append_assoc]

/-! ### Membership chains through the pipelines -/

theorem mem_snd_groupFold {κ α : Type} [DecidableEq κ] {key : α → κ} {files : List α}
    {p : κ × List α} {x : α} (hp : p ∈ groupFold key files []) (hx : x ∈ p.2) :
    x ∈ files := by
  rw [entry_groupFold hp] at hx
  exact (List.mem_filter.mp hx).1

theorem mem_flatValues_prune_size {files : List FsEntry} {x : FsEntry}
    (hx : x ∈ flatValues (prune_non_duplicates (get_files_by_size files))) : x ∈ files := by
  rcases mem_flatValues.mp hx with ⟨q, hq, hxq⟩
  exact mem_snd_groupFold (mem_prune.mp hq).1 hxq

theorem mem_snd_hash_pipeline {md5 : List Nat → String} {files : List FsEntry}
    {q : String × List FsEntry} {x : FsEntry}
    (hq : q ∈ prune_non_duplicates (get_files_by_hash md5
      (prune_non_duplicates (get_files_by_size files)))) (hx : x ∈ q.2) : x ∈ files := by
  have h1 : q ∈ get_files_by_hash md5 (prune_non_duplicates (get_files_by_size files)) :=
    (mem_prune.mp hq).1
  rw [get_files_by_hash_eq_groupFold] at h1
  exact mem_flatValues_prune_size (mem_snd_groupFold h1 hx)

/-- When every element passing the filter lies under the single key `s`,
filtering the flattened values is filtering the group at `s`. -/
theorem flatValues_filter_single {κ α : Type} [DecidableEq κ] {d : List (κ × List α)}
    (hnd : (d.map Prod.fst).Nodup) {pred : α → Bool} {s : κ}
    (h : ∀ p ∈ d, ∀ x ∈ p.2, pred x = true → p.1 = s) :
    (flatValues d).filter pred = (lookupG d s).filter pred := by
  induction d with
  | nil => simp [flatValues, lookupG_nil]
  | cons p ps ih =>
    have hnd1 : p.1 ∉ ps.map Prod.fst := (List.nodup_cons.mp (by simpa using hnd)).1
    have hnd2 : (ps.map Prod.fst).Nodup := (List.nodup_cons.mp (by simpa using hnd)).2
    rw [flatValues, List.filter_append, lookupG_cons]
    by_cases hp : p.1 = s
    · rw [if_pos hp]
      have hrest : (flatValues ps).filter pred = [] := by
        rw [List.filter_eq_nil_iff]
        intro a ha hpa
        rcases mem_flatValues.mp ha with ⟨r, hr, har⟩
        have hrs : r.1 = s := h r (List.mem_cons_of_mem _ hr) a har hpa
        exact hnd1 ((hp.trans hrs.symm) ▸ List.mem_map_of_mem Prod.fst hr)
      rw [hrest, List.append_nil]
    · rw [if_neg hp]
      have hhead : p.2.filter pred = [] := by
        rw [List.filter_eq_nil_iff]
        intro a ha hpa
        exact hp (h p (List.mem_cons_self _ _) a ha hpa)
      rw [hhead, List.nil_append]
      exact ih hnd2 (fun r hr => h r (List.mem_cons_of_mem _ hr))

/-- Core of claim C1, over the already-filtered file list: two distinct
files of equal content end up together in the pruned hash dict, under
the key of their common digest, and in no other entry. -/
theorem c1_core (md5 : List Nat → String) (files : List FsEntry) {f g : FsEntry}
    (hf : f ∈ files) (hg : g ∈ files) (hne : f ≠ g) (hcontent : f.content = g.content) :
    (∃ fs, (md5 f.content, fs) ∈ prune_non_duplicates (get_files_by_hash md5
        (prune_non_duplicates (get_files_by_size files))) ∧ f ∈ fs ∧ g ∈ fs) ∧
    ∀ p q, p ∈ prune_non_duplicates (get_files_by_hash md5
        (prune_non_duplicates (get_files_by_size files))) →
      q ∈ prune_non_duplicates (get_files_by_hash md5
        (prune_non_duplicates (get_files_by_size files))) →
      f ∈ p.2 → f ∈ q.2 → p = q := by
  have hsize : g.st_size = f.st_size := (congrArg List.length hcontent).symm
  -- f and g share one size group of length at least two
  rcases exists_entry_of_mem_keys
      (@mem_keys_groupFold_of_mem Nat FsEntry _ FsEntry.st_size files f hf) with ⟨q₀, hq₀, hk₀⟩
  have hq₀c : q₀.2 = files.filter (fun x => decide (x.st_size = q₀.1)) := entry_groupFold hq₀
  have hfq₀ : f ∈ q₀.2 := by
    rw [hq₀c]
    exact List.mem_filter.mpr ⟨hf, by simp [hk₀]⟩
  have hgq₀ : g ∈ q₀.2 := by
    rw [hq₀c]
    exact List.mem_filter.mpr ⟨hg, by simp [hsize, hk₀]⟩
  have hq₀p : q₀ ∈ prune_non_duplicates (get_files_by_size files) :=
    mem_prune.mpr ⟨hq₀, one_lt_length_of_mem_ne hfq₀ hgq₀ hne⟩
  have hfP : f ∈ flatValues (prune_non_duplicates (get_files_by_size files)) :=
    mem_flatValues.mpr ⟨q₀, hq₀p, hfq₀⟩
  have hgP : g ∈ flatValues (prune_non_duplicates (get_files_by_size files)) :=
    mem_flatValues.mpr ⟨q₀, hq₀p, hgq₀⟩
  -- hence they share one hash group of length at least two
  rw [get_files_by_hash_eq_groupFold]
  rcases exists_entry_of_mem_keys
      (@mem_keys_groupFold_of_mem String FsEntry _ (fun x => md5 x.content)
        (flatValues (prune_non_duplicates (get_files_by_size files))) f hfP) with ⟨r, hr, hrk⟩
  have hrc : r.2 = (flatValues (prune_non_duplicates (get_files_by_size files))).filter
      (fun x => decide (md5 x.content = r.1)) := entry_groupFold hr
  have hfr : f ∈ r.2 := by
    rw [hrc]
    exact List.mem_filter.mpr ⟨hfP, by simp [hrk]⟩
  have hgr : g ∈ r.2 := by
    rw [hrc]
    exact List.mem_filter.mpr ⟨hgP, by simp [hrk, hcontent]⟩
  have hrp : r ∈ prune_non_duplicates (groupFold (fun x => md5 x.content)
      (flatValues (prune_non_duplicates (get_files_by_size files))) []) :=
    mem_prune.mpr ⟨hr, one_lt_length_of_mem_ne hfr hgr hne⟩
  have hnd : ((groupFold (fun x => md5 x.content)
      (flatValues (prune_non_duplicates (get_files_by_size files)))
      ([] : List (String × List FsEntry))).map Prod.fst).Nodup :=
    keysNodup_groupFold _ _ (by simp)
  constructor
  · refine ⟨r.2, ?_, hfr, hgr⟩
    have : (md5 f.content, r.2) = r := Prod.ext hrk.symm rfl
    rw [this]
    exact hrp
  · intro p q hp hq hfp hfq
    have hpk : p.1 = md5 f.content := by
      have := entry_groupFold (mem_prune.mp hp).1
      rw [this] at hfp
      exact (by simpa using (List.mem_filter.mp hfp).2 : md5 f.content = p.1).symm
    have hqk : q.1 = md5 f.content := by
      have := entry_groupFold (mem_prune.mp hq).1
      rw [this] at hfq
      exact (by simpa using (List.mem_filter.mp hfq).2 : md5 f.content = q.1).symm
    exact entries_key_eq (keysNodup_prune hnd) hp hq (hpk.trans hqk.symm)

theorem get_files_by_size_eq_groupFold (files : List FsEntry) :
    get_files_by_size files = groupFold FsEntry.st_size files [] := rfl

theorem get_files_by_name_eq_groupFold (files : List FsEntry) :
    get_files_by_name files = groupFold FsEntry.name files [] := rfl

theorem groupByHashDirect_eq_groupFold (md5 : List Nat → String) (files : List FsEntry) :
    groupByHashDirect md5 files = groupFold (fun f => md5 f.content) files [] := rfl

/-- Core of claim C4: when equal digests force equal content lengths,
running the hash grouping over the pruned size groups and pruning gives,
at every key, the same list as hashing every file directly and
pruning. -/
theorem c4_core (md5 : List Nat → String)
    (hLen : ∀ c₁ c₂ : List Nat, md5 c₁ = md5 c₂ → c₁.length = c₂.length)
    (files : List FsEntry) (k : String) :
    lookupG (prune_non_duplicates (get_files_by_hash md5
        (prune_non_duplicates (get_files_by_size files)))) k =
      lookupG (prune_non_duplicates (groupByHashDirect md5 files)) k := by
  have hndSize : ((get_files_by_size files).map Prod.fst).Nodup :=
    keysNodup_groupFold FsEntry.st_size files (by simp)
  have hndP : (((prune_non_duplicates (get_files_by_size files)).map Prod.fst)).Nodup :=
    keysNodup_prune hndSize
  rw [get_files_by_hash_eq_groupFold, groupByHashDirect_eq_groupFold]
  have hndH : ((groupFold (fun f => md5 f.content)
      (flatValues (prune_non_duplicates (get_files_by_size files)))
      ([] : List (String × List FsEntry))).map Prod.fst).Nodup :=
    keysNodup_groupFold _ _ (by simp)
  have hndD : ((groupFold (fun f => md5 f.content) files
      ([] : List (String × List FsEntry))).map Prod.fst).Nodup :=
    keysNodup_groupFold _ _ (by simp)
  rw [lookupG_prune hndH k, lookupG_prune hndD k, lookupG_groupFold, lookupG_groupFold,
    lookupG_nil, List.nil_append, List.nil_append]
  by_cases hFk : files.filter (fun x => decide (md5 x.content = k)) = []
  · have hPk : (flatValues (prune_non_duplicates (get_files_by_size files))).filter
        (fun x => decide (md5 x.content = k)) = [] := by
      rw [List.filter_eq_nil_iff]
      intro a ha hpa
      have : a ∈ files.filter (fun x => decide (md5 x.content = k)) :=
        List.mem_filter.mpr ⟨mem_flatValues_prune_size ha, hpa⟩
      rw [hFk] at this
      cases this
    rw [hPk, hFk]
  · rcases List.exists_mem_of_ne_nil _ hFk with ⟨f₀, hf₀⟩
    have hk₀ : md5 f₀.content = k := by simpa using (List.mem_filter.mp hf₀).2
    have hSame : ∀ x : FsEntry, md5 x.content = k → x.st_size = f₀.st_size :=
      fun x hx => hLen x.content f₀.content (hx.trans hk₀.symm)
    have hPk : (flatValues (prune_non_duplicates (get_files_by_size files))).filter
          (fun x => decide (md5 x.content = k)) =
        (lookupG (prune_non_duplicates (get_files_by_size files)) f₀.st_size).filter
          (fun x => decide (md5 x.content = k)) := by
      apply flatValues_filter_single hndP
      intro p hp x hxp hpa
      have hx : md5 x.content = k := by simpa using hpa
      have hxs : x.st_size = p.1 := by
        have hchar := entry_groupFold (mem_prune.mp hp).1
        rw [hchar] at hxp
        simpa using (List.mem_filter.mp hxp).2
      rw [← hxs]
      exact hSame x hx
    have hG : lookupG (get_files_by_size files) f₀.st_size =
        files.filter (fun x => decide (x.st_size = f₀.st_size)) := by
      rw [get_files_by_size_eq_groupFold, lookupG_groupFold, lookupG_nil, List.nil_append]
    have hFkG : (files.filter (fun x => decide (x.st_size = f₀.st_size))).filter
          (fun x => decide (md5 x.content = k)) =
        files.filter (fun x => decide (md5 x.content = k)) := by
      rw [List.filter_filter]
      apply List.filter_congr
      intro a _
      by_cases hpa : md5 a.content = k
      · simp [hpa, hSame a hpa]
      · simp [hpa]
    rw [hPk, lookupG_prune hndSize, hG]
    by_cases hGlen : 1 < (files.filter (fun x => decide (x.st_size = f₀.st_size))).length
    · rw [if_pos hGlen, hFkG]
    · rw [if_neg hGlen]
      have hle : (files.filter (fun x => decide (md5 x.content = k))).length ≤
          (files.filter (fun x => decide (x.st_size = f₀.st_size))).length := by
        rw [← hFkG]
        exact List.length_filter_le _ _
      have hnot : ¬ 1 < (files.filter (fun x => decide (md5 x.content = k))).length :=
        fun hc => hGlen (lt_of_lt_of_le hc hle)
      rw [if_neg hnot]
      simp

/-! ### Concrete entries and a concrete digest for witnesses -/

/-- Two regular files with equal content, distinct paths. -/
def fileA : FsEntry := ⟨"r/dup1.txt", true, [9, 9]⟩

/-- Second file of the equal-content pair. -/
def fileB : FsEntry := ⟨"r/dup2.txt", true, [9, 9]⟩

/-- A file with stem `fileA` and suffix `.log`. -/
def fileC : FsEntry := ⟨"r/fileA.log", true, [1, 2]⟩

/-- A file with stem `fileA` and suffix `.txt`. -/
def fileD : FsEntry := ⟨"r/fileA.txt", true, [3]⟩

/-- Same stem and suffix as `cexB`, different directory and content. -/
def cexA : FsEntry := ⟨"a/f.txt", true, [65]⟩

/-- Same stem and suffix as `cexA`, different directory and content. -/
def cexB : FsEntry := ⟨"b/f.txt", true, [66]⟩

/-- A concrete digest function for witnesses: one letter per content
byte, so equal digests force equal content lengths. -/
def md5len (c : List Nat) : String := String.mk (c.map (fun _ => 'a'))

theorem md5len_len : ∀ c₁ c₂ : List Nat, md5len c₁ = md5len c₂ → c₁.length = c₂.length := by
  intro c₁ c₂ h
  have h2 := congrArg (fun s => s.data.length) h
  simpa [md5len] using h2

/-! ### The claims -/

/-- Claim C1: for every file list and every pair of distinct files in it
with identical size and identical content, the detector's output maps
SAME_SIZE_AND_HASH to a pruned mapping in which both files appear
together, in the group keyed by their common content digest, and in no
other group. -/
theorem c1_same_content_together (md5 : List Nat → String) (listing : List FsEntry)
    (exts : Option (List String)) (f g : FsEntry)
    (hf : f ∈ get_files listing exts) (hg : g ∈ get_files listing exts) (hne : f ≠ g)
    (_hsize : f.st_size = g.st_size) (hcontent : f.content = g.content) :
    ∃ m, (DupFileReasonEnum.SAME_SIZE_AND_HASH, m) ∈
        find_potential_duplicates md5 listing exts ∧
      (∃ fs, (md5 f.content, fs) ∈ m ∧ f ∈ fs ∧ g ∈ fs) ∧
      ∀ p q, p ∈ m → q ∈ m → f ∈ p.2 → f ∈ q.2 → p = q := by
  refine ⟨prune_non_duplicates (get_files_by_hash md5
      (prune_non_duplicates (get_files_by_size (get_files listing exts)))), ?_, ?_, ?_⟩
  · simp [find_potential_duplicates]
  · exact (c1_core md5 _ hf hg hne hcontent).1
  · exact (c1_core md5 _ hf hg hne hcontent).2

theorem c1_witness :
    ∃ m, (DupFileReasonEnum.SAME_SIZE_AND_HASH, m) ∈
        find_potential_duplicates md5len [fileA, fileB] none ∧
      (∃ fs, (md5len fileA.content, fs) ∈ m ∧ fileA ∈ fs ∧ fileB ∈ fs) ∧
      ∀ p q, p ∈ m → q ∈ m → fileA ∈ p.2 → fileA ∈ q.2 → p = q :=
  c1_same_content_together md5len [fileA, fileB] none fileA fileB (by decide) (by decide)
    (by decide) (by decide) (by decide)

/-- Claim C2: the stem grouping is a single left-to-right pass whose
step appends the next file to its stem's group exactly when no member
of that group has the same extension; the first file of a stem is
always appended, and a file whose extension is already represented
leaves the dict unchanged. -/
theorem c2_stem_append_rule (files : List FsEntry) (f : FsEntry) :
    (get_files_by_stem_diff_suffix (files ++ [f]) =
      if ∃ h ∈ lookupG (get_files_by_stem_diff_suffix files) f.stem, h.suffix = f.suffix
      then get_files_by_stem_diff_suffix files
      else addToGroup (get_files_by_stem_diff_suffix files) f.stem f) ∧
    (f.stem ∉ (get_files_by_stem_diff_suffix files).map Prod.fst →
      f ∈ lookupG (get_files_by_stem_diff_suffix (files ++ [f])) f.stem) ∧
    ((∃ h ∈ lookupG (get_files_by_stem_diff_suffix files) f.stem, h.suffix = f.suffix) →
      get_files_by_stem_diff_suffix (files ++ [f]) = get_files_by_stem_diff_suffix files) := by
  have hsnoc : get_files_by_stem_diff_suffix (files ++ [f]) =
      stemStep (get_files_by_stem_diff_suffix files) f := by
    rw [get_files_by_stem_diff_suffix, List.foldl_append]
    rfl
  refine ⟨by rw [hsnoc, stemStep], ?_, ?_⟩
  · intro hk
    have h0 : lookupG (get_files_by_stem_diff_suffix files) f.stem = [] := lookupG_eq_nil hk
    rw [hsnoc, stemStep, if_neg (by simp [h0]), lookupG_addToGroup, if_pos rfl, h0]
    simp
  · intro hex
    rw [hsnoc, stemStep, if_pos hex]

theorem c2_witness :
    (fileC.stem ∉ (get_files_by_stem_diff_suffix []).map Prod.fst ∧
      fileC ∈ lookupG (get_files_by_stem_diff_suffix ([] ++ [fileC])) fileC.stem) ∧
    get_files_by_stem_diff_suffix ([cexA] ++ [cexB]) = get_files_by_stem_diff_suffix [cexA] :=
  ⟨⟨by decide, (c2_stem_append_rule [] fileC).2.1 (by decide)⟩,
   (c2_stem_append_rule [cexA] cexB).2.2 ⟨cexA, by decide, by decide⟩⟩

/-- Claim C3: pruning returns exactly the entries whose value list has
at least two elements, and hence every value list in each of the three
mappings of the detector's output has length at least two. -/
theorem c3_prune_invariant {κ α : Type} (d : List (κ × List α)) :
    (∀ p : κ × List α, p ∈ prune_non_duplicates d ↔ p ∈ d ∧ 2 ≤ p.2.length) ∧
    ∀ (md5 : List Nat → String) (listing : List FsEntry) (exts : Option (List String))
      (r : DupFileReasonEnum) (m : List (String × List FsEntry))
      (q : String × List FsEntry),
      (r, m) ∈ find_potential_duplicates md5 listing exts → q ∈ m → 2 ≤ q.2.length := by
  constructor
  · intro p
    exact mem_prune
  · intro md5 listing exts r m q hm hq
    simp only [find_potential_duplicates, List.mem_cons, List.not_mem_nil, or_false,
      Prod.mk.injEq] at hm
    rcases hm with ⟨h1, h2⟩ | ⟨h1, h2⟩ | ⟨h1, h2⟩ <;>
      (rw [h2] at hq; exact (mem_prune.mp hq).2)

theorem c3_witness :
    ((0, [fileA, fileB]) ∈ prune_non_duplicates [((0 : Nat), [fileA, fileB])]) ∧
    2 ≤ (("aa", [fileA, fileB]) : String × List FsEntry).2.length :=
  ⟨((c3_prune_invariant [((0 : Nat), [fileA, fileB])]).1 (0, [fileA, fileB])).mpr
      ⟨by decide, by decide⟩,
   (c3_prune_invariant ([] : List (Nat × List FsEntry))).2 md5len [fileA, fileB] none
     DupFileReasonEnum.SAME_SIZE_AND_HASH [("aa", [fileA, fileB])] ("aa", [fileA, fileB])
     (by decide) (by decide)⟩

/-- Claim C4: under the digest property the program operationally
assumes of MD5 — equal digests only for contents of equal byte length —
the SAME_SIZE_AND_HASH mapping computed by the implemented pipeline
(size-group, prune, hash-group, prune) agrees at every key with the
mapping obtained by hashing every file of the list directly and
pruning. -/
theorem c4_pruned_pipeline_eq_direct (md5 : List Nat → String)
    (hLen : ∀ c₁ c₂ : List Nat, md5 c₁ = md5 c₂ → c₁.length = c₂.length)
    (listing : List FsEntry) (exts : Option (List String))
    (m : List (String × List FsEntry))
    (hm : (DupFileReasonEnum.SAME_SIZE_AND_HASH, m) ∈
      find_potential_duplicates md5 listing exts) (k : String) :
    lookupG m k =
      lookupG (prune_non_duplicates (groupByHashDirect md5 (get_files listing exts))) k := by
  have hm2 : m = prune_non_duplicates (get_files_by_hash md5
      (prune_non_duplicates (get_files_by_size (get_files listing exts)))) := by
    simp only [find_potential_duplicates, List.mem_cons, List.not_mem_nil, or_false,
      Prod.mk.injEq] at hm
    rcases hm with ⟨h1, h2⟩ | ⟨h1, h2⟩ | ⟨h1, h2⟩
    · exact h2
    · cases h1
    · cases h1
  rw [hm2]
  exact c4_core md5 hLen (get_files listing exts) k

theorem c4_witness :
    lookupG [("aa", [fileA, fileB])] "aa" =
      lookupG (prune_non_duplicates
        (groupByHashDirect md5len (get_files [fileA, fileB] none))) "aa" :=
  c4_pruned_pipeline_eq_direct md5len md5len_len [fileA, fileB] none
    [("aa", [fileA, fileB])] (by decide) "aa"

/-- Claim C5, amended: within any single grouping pass no file appears
under two different keys; each file of the input belongs to exactly one
size group, exactly one hash group, exactly one name group, and to at
most one stem group (the stem grouping may omit a file entirely). -/
theorem c5_grouping_disjoint (md5 : List Nat → String) (files : List FsEntry)
    (d : List (Nat × List FsEntry)) (f : FsEntry) :
    (f ∈ files → ∃! p, p ∈ get_files_by_size files ∧ f ∈ p.2) ∧
    (f ∈ files → ∃! p, p ∈ get_files_by_name files ∧ f ∈ p.2) ∧
    (f ∈ flatValues d → ∃! p, p ∈ get_files_by_hash md5 d ∧ f ∈ p.2) ∧
    ∀ p q, p ∈ get_files_by_stem_diff_suffix files →
      q ∈ get_files_by_stem_diff_suffix files → f ∈ p.2 → f ∈ q.2 → p = q := by
  refine ⟨fun hf => existsUnique_groupFold hf, fun hf => existsUnique_groupFold hf, ?_, ?_⟩
  · intro hf
    rw [get_files_by_hash_eq_groupFold]
    exact existsUnique_groupFold hf
  · intro p q hp hq hfp hfq
    obtain ⟨hnd, hstem, _⟩ := stemInv_get_files_by_stem_diff_suffix files
    exact entries_key_eq hnd hp hq ((hstem p hp f hfp).symm.trans (hstem q hq f hfq))

theorem c5_witness :
    (∃! p, p ∈ get_files_by_size [fileA, fileB] ∧ fileA ∈ p.2) ∧
    (∃! p, p ∈ get_files_by_hash md5len [((2 : Nat), [fileA, fileB])] ∧ fileA ∈ p.2) :=
  ⟨(c5_grouping_disjoint md5len [fileA, fileB] [] fileA).1 (by decide),
   (c5_grouping_disjoint md5len [fileA, fileB] [((2 : Nat), [fileA, fileB])] fileA).2.2.1
     (by decide)⟩

/-- Claim C5 as frozen is false on the code: in the stem grouping, a
file whose stem and suffix both repeat an earlier file's belongs to no
stem group at all — here `cexB` is in the input, yet the grouping's
single group omits it, so `cexB` does not belong to exactly one stem
group. -/
theorem c5_counterexample :
    cexB ∈ [cexA, cexB] ∧
    get_files_by_stem_diff_suffix [cexA, cexB] = [("f", [cexA])] ∧
    (get_files_by_stem_diff_suffix [cexA, cexB]).countP (fun p => decide (cexB ∈ p.2)) = 0 := by
  decide

/-- Claim C6: when an extension filter is supplied, every enumerated
file is a regular file whose final extension is a member of the filter
set (exact, case-sensitive string match against the final extension
only), and hence so is every file in every group of the detector's
output. -/
theorem c6_extension_filter (md5 : List Nat → String) (listing : List FsEntry)
    (exts : List String) (f : FsEntry) :
    (f ∈ get_files listing (some exts) → f.isFile = true ∧ f.suffix ∈ exts) ∧
    ∀ r m q, (r, m) ∈ find_potential_duplicates md5 listing (some exts) → q ∈ m →
      f ∈ q.2 → f.suffix ∈ exts := by
  have hbase : ∀ x : FsEntry, x ∈ get_files listing (some exts) →
      x.isFile = true ∧ x.suffix ∈ exts := by
    intro x hx
    have h2 := (List.mem_filter.mp hx).2
    simp only [Bool.and_eq_true, decide_eq_true_eq] at h2
    exact h2
  refine ⟨hbase f, ?_⟩
  intro r m q hm hq hfq
  simp only [find_potential_duplicates, List.mem_cons, List.not_mem_nil, or_false,
    Prod.mk.injEq] at hm
  rcases hm with ⟨h1, h2⟩ | ⟨h1, h2⟩ | ⟨h1, h2⟩
  · rw [h2] at hq
    exact (hbase f (mem_snd_hash_pipeline hq hfq)).2
  · rw [h2] at hq
    have hmem : f ∈ get_files listing (some exts) :=
      mem_snd_groupFold (mem_prune.mp hq).1 hfq
    exact (hbase f hmem).2
  · rw [h2] at hq
    exact (hbase f (mem_snd_stem_groups (mem_prune.mp hq).1 hfq)).2

theorem c6_witness : fileA.isFile = true ∧ fileA.suffix ∈ [".txt"] :=
  (c6_extension_filter md5len [fileA, fileC] [".txt"] fileA).1 (by decide)

/-- Claim C7: the detector's output always carries the three reason
keys, in the fixed order SAME_SIZE_AND_HASH, SAME_NAME,
SAME_STEM_DIFF_SUFFIX with the fixed reason texts; the report is the
newline-join of one block per reason in that order, and an empty
mapping's block is exactly the header plus the single line
`    No potential duplicates found.` carrying its own trailing newline
(which renders as a blank line) in place of group listings. -/
theorem c7_report_structure (md5 : List Nat → String) (listing : List FsEntry)
    (exts : Option (List String)) :
    (find_potential_duplicates md5 listing exts).map Prod.fst =
      [DupFileReasonEnum.SAME_SIZE_AND_HASH, DupFileReasonEnum.SAME_NAME,
       DupFileReasonEnum.SAME_STEM_DIFF_SUFFIX] ∧
    DupFileReasonEnum.SAME_SIZE_AND_HASH.value = "same size and hash" ∧
    DupFileReasonEnum.SAME_NAME.value = "same name" ∧
    DupFileReasonEnum.SAME_STEM_DIFF_SUFFIX.value = "same stem different suffix" ∧
    format_duplicate_report (find_potential_duplicates md5 listing exts) =
      String.intercalate "\n"
        (concatAll reasonBlock (find_potential_duplicates md5 listing exts)) ∧
    ∀ r : DupFileReasonEnum,
      reasonBlock (r, []) = ["Reason: " ++ r.value, "    No potential duplicates found.\n"] := by
  refine ⟨by simp [find_potential_duplicates], rfl, rfl, rfl, ?_, fun r => rfl⟩
  rw [format_duplicate_report, reportLines_eq_concatAll]

/-- Claim C8: the detector is deterministic — two runs over the same
enumeration snapshot (same file list with the same per-file contents,
names and flags, and the same filter) produce identical Duplicate
Report Data, with the same group membership under every reason. -/
theorem c8_deterministic (md5 : List Nat → String) (listing₁ listing₂ : List FsEntry)
    (exts₁ exts₂ : Option (List String)) (h1 : listing₁ = listing₂) (h2 : exts₁ = exts₂) :
    find_potential_duplicates md5 listing₁ exts₁ =
      find_potential_duplicates md5 listing₂ exts₂ := by
  rw [h1, h2]

theorem c8_witness :
    find_potential_duplicates md5len [fileA, fileB] none =
      find_potential_duplicates md5len [fileA, fileB] none :=
  c8_deterministic md5len [fileA, fileB] [fileA, fileB] none none rfl rfl

/-- Claim C9: in every value list of the stem grouping all files have
pairwise distinct extensions; a file whose stem and extension both
match a file already processed joins no group at all, so the grouping's
value lists can omit files of the input. -/
theorem c9_stem_distinct_suffixes (files : List FsEntry) :
    (∀ p ∈ get_files_by_stem_diff_suffix files, (p.2.map FsEntry.suffix).Nodup) ∧
    ∀ g : FsEntry, g ∉ files → (∃ f ∈ files, f.stem = g.stem ∧ f.suffix = g.suffix) →
      get_files_by_stem_diff_suffix (files ++ [g]) = get_files_by_stem_diff_suffix files ∧
      ∀ p ∈ get_files_by_stem_diff_suffix (files ++ [g]), g ∉ p.2 := by
  obtain ⟨hnd, hstem, hsuf⟩ := stemInv_get_files_by_stem_diff_suffix files
  refine ⟨hsuf, ?_⟩
  intro g hg hex
  rcases hex with ⟨f, hf, hfs, hfx⟩
  have hcov : StemCovered (get_files_by_stem_diff_suffix files) g := by
    rcases stemCovered_fold hf [] with ⟨h, hh, hhs⟩
    exact ⟨h, by rw [← hfs]; exact hh, by rw [← hfx]; exact hhs⟩
  have heq : get_files_by_stem_diff_suffix (files ++ [g]) =
      get_files_by_stem_diff_suffix files := by
    rw [get_files_by_stem_diff_suffix, List.foldl_append]
    show stemStep (get_files_by_stem_diff_suffix files) g = _
    rw [stemStep]
    exact if_pos hcov
  refine ⟨heq, ?_⟩
  intro p hp hgp
  rw [heq] at hp
  exact hg (mem_snd_stem_groups hp hgp)

theorem c9_witness :
    get_files_by_stem_diff_suffix ([cexA] ++ [cexB]) = get_files_by_stem_diff_suffix [cexA] ∧
    ∀ p ∈ get_files_by_stem_diff_suffix ([cexA] ++ [cexB]), cexB ∉ p.2 :=
  (c9_stem_distinct_suffixes [cexA]).2 cexB (by decide) ⟨cexA, by decide, by decide, by decide⟩

/-- Claim C10: the hash grouping ignores the input mapping's keys and
groups the union of its value lists solely by content digest — any two
inputs with the same flattened values give the same output, two
equal-digest files from different input groups land in one output
group, and each output key is exactly its members' digest. -/
theorem c10_hash_ignores_keys {κ κ₂ : Type} (md5 : List Nat → String)
    (d : List (κ × List FsEntry)) (d₂ : List (κ₂ × List FsEntry)) :
    get_files_by_hash md5 d = groupByHashDirect md5 (flatValues d) ∧
    (flatValues d = flatValues d₂ → get_files_by_hash md5 d = get_files_by_hash md5 d₂) ∧
    (∀ p ∈ get_files_by_hash md5 d, ∀ f ∈ p.2, md5 f.content = p.1) ∧
    ∀ f g, f ∈ flatValues d → g ∈ flatValues d → md5 f.content = md5 g.content →
      ∃ fs, (md5 f.content, fs) ∈ get_files_by_hash md5 d ∧ f ∈ fs ∧ g ∈ fs := by
  refine ⟨get_files_by_hash_eq_groupFold md5 d, ?_, ?_, ?_⟩
  · intro hfv
    rw [get_files_by_hash_eq_groupFold, get_files_by_hash_eq_groupFold, hfv]
  · intro p hp f hf
    rw [get_files_by_hash_eq_groupFold] at hp
    have hc := entry_groupFold hp
    rw [hc] at hf
    simpa using (List.mem_filter.mp hf).2
  · intro f g hf hg hfg
    rw [get_files_by_hash_eq_groupFold]
    rcases exists_entry_of_mem_keys (@mem_keys_groupFold_of_mem String FsEntry _
      (fun x => md5 x.content) (flatValues d) f hf) with ⟨q, hq, hqk⟩
    have hqc := entry_groupFold hq
    refine ⟨q.2, ?_, ?_, ?_⟩
    · have hpq : (md5 f.content, q.2) = q := Prod.ext hqk.symm rfl
      rw [hpq]
      exact hq
    · rw [hqc]
      exact List.mem_filter.mpr ⟨hf, by simp [hqk]⟩
    · rw [hqc]
      exact List.mem_filter.mpr ⟨hg, by simp [hqk, ← hfg]⟩

theorem c10_witness :
    get_files_by_hash md5len [((1 : Nat), [fileA]), (2, [fileB])] =
      get_files_by_hash md5len [(("x" : String), [fileA, fileB])] ∧
    ∃ fs, (md5len fileA.content, fs) ∈ get_files_by_hash md5len
        [((1 : Nat), [fileA]), (2, [fileB])] ∧ fileA ∈ fs ∧ fileB ∈ fs :=
  ⟨(c10_hash_ignores_keys md5len [((1 : Nat), [fileA]), (2, [fileB])]
      [(("x" : String), [fileA, fileB])]).2.1 (by decide),
   (c10_hash_ignores_keys md5len [((1 : Nat), [fileA]), (2, [fileB])]
      [(("x" : String), [fileA, fileB])]).2.2.2 fileA fileB (by decide) (by decide)
     (by decide)⟩
